import Mathlib

/-!
Verification of the restate deduplicating command-application core.

The definitions below are a shallow embedding of the identifier codec
(crates/types/src/identifiers.rs) and of the deduplicating command
interpreter (crates/worker/src/partition/state_machine/dedup.rs).
Byte buffers are lists of natural numbers below 256, 64-bit integers are
natural numbers below 2 to the 64, strings are lists of characters.
Collaborator types whose code is outside the analysed sources
(the storage transaction, the effects buffer, the base64 engine, the
xxh3 hash) are modelled from the specification and marked as such.
-/

namespace Restate

/-! ## Byte-level helpers for the identifier codec -/

/-- Big-endian byte decomposition of a 64-bit value, as in
PartitionKey.to_be_bytes. The divisors are 2 to the 56, 48, 40, 32, 24,
16, 8. -/
def toBeBytes (n : Nat) : List Nat :=
  [n / 72057594037927936 % 256, n / 281474976710656 % 256,
   n / 1099511627776 % 256, n / 4294967296 % 256,
   n / 16777216 % 256, n / 65536 % 256, n / 256 % 256, n % 256]

/-- Big-endian recomposition, as in PartitionKey.from_be_bytes. -/
def fromBeBytes (l : List Nat) : Nat :=
  l.foldl (fun acc b => acc * 256 + b) 0

/-! ## Identifier data model (crates/types/src/identifiers.rs) -/

/-- InvocationUuid wraps a uuid, which is 16 raw bytes. -/
structure InvocationUuid where
  bytes : List Nat
deriving DecidableEq

/-- Well-formedness of a uuid value: exactly 16 bytes. -/
def InvocationUuid.Wf (u : InvocationUuid) : Prop :=
  u.bytes.length = 16 ∧ ∀ b ∈ u.bytes, b < 256

instance (u : InvocationUuid) : Decidable u.Wf := by
  unfold InvocationUuid.Wf
  infer_instance

/-- The error of Uuid.from_slice: only a length mismatch is possible. -/
inductive UuidError where
  | badLength
deriving DecidableEq

/-- Uuid.from_slice from the uuid crate: succeeds exactly on 16 bytes. -/
def uuid_from_slice (b : List Nat) : Except UuidError InvocationUuid :=
  if b.length = 16 then .ok ⟨b⟩ else .error .badLength

/-- InvocationId: a partition key together with an invocation uuid. -/
structure InvocationId where
  partition_key : Nat
  invocation_uuid : InvocationUuid
deriving DecidableEq

/-- Well-formedness: the partition key fits in 64 bits and the uuid is
well formed. -/
def InvocationId.Wf (id : InvocationId) : Prop :=
  id.partition_key < 18446744073709551616 ∧ id.invocation_uuid.Wf

instance (id : InvocationId) : Decidable id.Wf := by
  unfold InvocationId.Wf
  infer_instance

/-- encode_invocation_id: 8 big-endian partition-key bytes followed by
the 16 raw uuid bytes. -/
def encode_invocation_id (partition_key : Nat) (invocation_uuid : InvocationUuid) :
    List Nat :=
  toBeBytes partition_key ++ invocation_uuid.bytes

/-- InvocationId.as_bytes. -/
def InvocationId.as_bytes (id : InvocationId) : List Nat :=
  encode_invocation_id id.partition_key id.invocation_uuid

/-- The base64 decode errors surfaced by from_str. Modelled from the
spec: the base64 engine is an external crate; only the shape of its
error values matters here. -/
inductive B64Error where
  | invalidByte
  | invalidLastSymbol
  | invalidLength
deriving DecidableEq

/-- InvocationIdParseError from identifiers.rs. -/
inductive InvocationIdParseError where
  | BadSliceLength
  | uuid (e : UuidError)
  | BadBase64Length
  | base64 (e : B64Error)
deriving DecidableEq

/-- TryFrom of EncodedInvocationId for InvocationId: big-endian
partition key from the first 8 bytes, uuid from the remaining 16. -/
def invocation_id_try_from (encoded : List Nat) :
    Except InvocationIdParseError InvocationId :=
  match uuid_from_slice (encoded.drop 8) with
  | .error e => .error (.uuid e)
  | .ok u => .ok ⟨fromBeBytes (encoded.take 8), u⟩

/-- InvocationId.from_slice: reject any slice whose length is not 24,
then decode. -/
def invocation_id_from_slice (b : List Nat) :
    Except InvocationIdParseError InvocationId :=
  if b.length ≠ 24 then .error .BadSliceLength
  else invocation_id_try_from b

/-! ## Base64url without padding.

Modelled from the spec: the engine BASE64_URL_SAFE_NO_PAD comes from the
external base64 crate. Three input bytes become four alphabet
characters; a final group of one or two bytes becomes two or three
characters with the unused low bits of the last character required to be
zero. -/

/-- The base64url alphabet. -/
def b64alphabet : List Char :=
  ['A', 'B', 'C', 'D', 'E', 'F', 'G', 'H', 'I', 'J', 'K', 'L', 'M',
   'N', 'O', 'P', 'Q', 'R', 'S', 'T', 'U', 'V', 'W', 'X', 'Y', 'Z',
   'a', 'b', 'c', 'd', 'e', 'f', 'g', 'h', 'i', 'j', 'k', 'l', 'm',
   'n', 'o', 'p', 'q', 'r', 's', 't', 'u', 'v', 'w', 'x', 'y', 'z',
   '0', '1', '2', '3', '4', '5', '6', '7', '8', '9', '-', '_']

/-- Character of a six-bit value. -/
def b64char (n : Nat) : Char :=
  b64alphabet.getD n 'A'

/-- Index search in the alphabet. -/
def b64indexAux : List Char → Char → Nat → Option Nat
  | [], _, _ => Option.none
  | a :: rest, c, i => if a = c then some i else b64indexAux rest c (i + 1)

/-- Six-bit value of a character, if it belongs to the alphabet. -/
def b64index (c : Char) : Option Nat :=
  b64indexAux b64alphabet c 0

/-- Base64url encoding without padding over byte lists. -/
def b64encodeBytes : List Nat → List Char
  | [] => []
  | [b1] => [b64char (b1 / 4), b64char (b1 % 4 * 16)]
  | [b1, b2] =>
    [b64char (b1 / 4), b64char (b1 % 4 * 16 + b2 / 16), b64char (b2 % 16 * 4)]
  | b1 :: b2 :: b3 :: rest =>
    b64char (b1 / 4) :: b64char (b1 % 4 * 16 + b2 / 16) ::
      b64char (b2 % 16 * 4 + b3 / 64) :: b64char (b3 % 64) ::
      b64encodeBytes rest

/-- Base64url decoding without padding over character lists. A single
leftover character is an invalid length; nonzero trailing bits in the
last character are rejected, as the strict engine does. -/
def b64decodeChars : List Char → Except B64Error (List Nat)
  | [] => .ok []
  | [_] => .error .invalidLength
  | [c1, c2] =>
    match b64index c1, b64index c2 with
    | some s1, some s2 =>
      if s2 % 16 = 0 then .ok [s1 * 4 + s2 / 16] else .error .invalidLastSymbol
    | _, _ => .error .invalidByte
  | [c1, c2, c3] =>
    match b64index c1, b64index c2, b64index c3 with
    | some s1, some s2, some s3 =>
      if s3 % 4 = 0 then .ok [s1 * 4 + s2 / 16, s2 % 16 * 16 + s3 / 4]
      else .error .invalidLastSymbol
    | _, _, _ => .error .invalidByte
  | c1 :: c2 :: c3 :: c4 :: rest =>
    match b64index c1, b64index c2, b64index c3, b64index c4 with
    | some s1, some s2, some s3, some s4 =>
      match b64decodeChars rest with
      | .ok bs => .ok ((s1 * 4 + s2 / 16) :: (s2 % 16 * 16 + s3 / 4) ::
          (s3 % 4 * 64 + s4) :: bs)
      | .error e => .error e
    | _, _, _, _ => .error .invalidByte

/-- display_invocation_id: the two segments are encoded separately so
that a partition key can be matched on the first 11 characters. -/
def display_invocation_id (partition_key : Nat) (invocation_uuid : InvocationUuid) :
    List Char :=
  b64encodeBytes (toBeBytes partition_key) ++ b64encodeBytes invocation_uuid.bytes

/-- InvocationId.from_str: the total length must be 11 plus 22, the
unpadded base64 lengths of 8 and of 16 bytes; then each segment is
decoded separately and the 24 bytes are decoded as a slice. -/
def invocation_id_from_str (s : List Char) :
    Except InvocationIdParseError InvocationId :=
  if s.length ≠ 33 then .error .BadBase64Length
  else
    match b64decodeChars (s.take 11) with
    | .error e => .error (.base64 e)
    | .ok pkBytes =>
      match b64decodeChars (s.drop 11) with
      | .error e => .error (.base64 e)
      | .ok uuidBytes => invocation_id_try_from (pkBytes ++ uuidBytes)

/-! ## ServiceId and the partitioner -/

/-- Modelled from the spec: compute_partition_key is a stable,
deterministic, non-cryptographic 64-bit hash of the key bytes; the
concrete xxh3 implementation lives in an external crate, so a concrete
deterministic 64-bit fold stands in for it. -/
def compute_partition_key (key : List Nat) : Nat :=
  key.foldl (fun h b => (h * 31 + b) % 18446744073709551616) 5381

/-- ServiceId: a service name, the instance key bytes, and the cached
partition key. Equality compares all three fields, as the derived
PartialEq does. -/
structure ServiceId where
  service_name : String
  key : List Nat
  partition_key : Nat
deriving DecidableEq

/-- ServiceId.with_partition_key stores the given partition key without
recomputing it; its documentation requires the argument to be the hash
of the key. -/
def ServiceId.with_partition_key (partition_key : Nat) (service_name : String)
    (key : List Nat) : ServiceId :=
  ⟨service_name, key, partition_key⟩

/-- ServiceId.new computes the partition key from the key bytes. -/
def ServiceId.new (service_name : String) (key : List Nat) : ServiceId :=
  ServiceId.with_partition_key (compute_partition_key key) service_name key

/-- FullInvocationId: a service id plus the invocation uuid. -/
structure FullInvocationId where
  service_id : ServiceId
  invocation_uuid : InvocationUuid
deriving DecidableEq

/-! ## Deduplicating command interpreter
(crates/worker/src/partition/state_machine/dedup.rs) -/

/-- SequenceNumberSource from restate_storage_api: a logical producer
lane, either a producing partition or an ingress source. -/
inductive SequenceNumberSource where
  | partition (producing_partition_id : Nat)
  | ingress (source_id : String)
deriving DecidableEq

/-- DeduplicationSource: the wire-level descriptor carried by a
dedup-mode command. Modelled from the spec: it carries a sequence
number together with a producing partition id for shuffle traffic or a
source id for ingress traffic. -/
inductive DeduplicationSource where
  | shuffle (seq_number : Nat) (producing_partition_id : Nat)
  | ingress (seq_number : Nat) (source_id : String)
deriving DecidableEq

/-- The sequence number carried by a deduplication source. -/
def DeduplicationSource.seq_number : DeduplicationSource → Nat
  | .shuffle seq _ => seq
  | .ingress seq _ => seq

/-- The match at the top of the dedup branch of on_apply: a shuffle
descriptor maps to a partition lane, an ingress descriptor to an
ingress lane. -/
def sequence_number_source : DeduplicationSource → SequenceNumberSource
  | .shuffle _ producing_partition_id => .partition producing_partition_id
  | .ingress _ source_id => .ingress source_id

/-- Modelled from the spec: the acknowledgement target of AckMode.Ack,
identifying the producer the response is addressed to. -/
structure AckTarget where
  dest : String
deriving DecidableEq

/-- Modelled from the spec: the acknowledgement and duplicate response
messages produced by send_ack_response. -/
inductive AckResponse where
  | acknowledgeTarget (target : AckTarget)
  | acknowledge (source : DeduplicationSource)
  | duplicate (source : DeduplicationSource) (last_known : Nat)
deriving DecidableEq

/-- Modelled from the spec: an effect staged during one apply is either
an acknowledgement response or a command-specific mutation effect of
the inner interpreter, kept abstract here. -/
inductive Effect where
  | ackResponse (r : AckResponse)
  | stateEffect (tag : Nat)
deriving DecidableEq

/-- Modelled from the spec: a storage transaction failure. -/
inductive StorageError where
  | fail
deriving DecidableEq

/-- The state-machine error: a storage error or some other interpreter
error. Modelled from the spec. -/
inductive Error where
  | storage (e : StorageError)
  | other (code : Nat)
deriving DecidableEq

/-- SpanRelation from restate_types. Modelled from the spec: only the
None variant matters for the dedup layer; any other relation is kept
abstract. -/
inductive SpanRelation where
  | none
  | related (id : Nat)
deriving DecidableEq

/-- Lookup in the association list implementing the dedup ledger. -/
def dedupLookup : List (SequenceNumberSource × Nat) → SequenceNumberSource → Option Nat
  | [], _ => Option.none
  | (k, v) :: rest, s => if k = s then some v else dedupLookup rest s

/-- Point write in the association list implementing the dedup ledger. -/
def dedupUpsert : List (SequenceNumberSource × Nat) → SequenceNumberSource → Nat →
    List (SequenceNumberSource × Nat)
  | [], s, n => [(s, n)]
  | (k, v) :: rest, s, n =>
    if k = s then (s, n) :: rest else (k, v) :: dedupUpsert rest s n

/-- Modelled from the spec: the storage transaction visible to the
dedup layer. It holds the dedup ledger, an abstract summary of every
other table the inner interpreter may touch, and a flag injecting a
storage read failure. -/
structure Txn where
  dedup : List (SequenceNumberSource × Nat)
  rest : Nat
  readFails : Bool
deriving DecidableEq

/-- Transaction.load_dedup_seq_number: a point read of the ledger,
which can fail with a storage error. -/
def load_dedup_seq_number (t : Txn) (s : SequenceNumberSource) :
    Except StorageError (Option Nat) :=
  if t.readFails then .error .fail else .ok (dedupLookup t.dedup s)

/-- Transaction.store_dedup_seq_number: a buffered point write of the
ledger. -/
def store_dedup_seq_number (t : Txn) (s : SequenceNumberSource) (n : Nat) : Txn :=
  { t with dedup := dedupUpsert t.dedup s n }

/-- The inner fsm command, kept abstract: the dedup layer never
inspects it. -/
abbrev FsmCommand := Nat

/-- AckMode: per-command acknowledgement policy. -/
inductive AckMode where
  | ack (target : AckTarget)
  | dedup (source : DeduplicationSource)
  | none
deriving DecidableEq

/-- AckCommand: the inner command together with its ack mode;
into_inner splits it into the two fields. -/
structure AckCommand where
  cmd : FsmCommand
  ack_mode : AckMode
deriving DecidableEq

/-- The result type of on_apply in the command interpreter contract. -/
abbrev ApplyOutcome :=
  Except Error ((Option FullInvocationId × SpanRelation) × List Effect × Txn)

/-- The inner command interpreter, as the contract of section 4.2:
a function of the command, the staged effects and the transaction.
Modelled from the spec: its concrete code is outside the analysed
sources, so the dedup theorems quantify over it. -/
abbrev InterpFn := FsmCommand → List Effect → Txn → ApplyOutcome

/-- The shared tail of the non-duplicate dedup path: store the sequence
number, stage the acknowledge response, then forward to the inner
interpreter. -/
def dedupProceed (interp : InterpFn) (cmd : FsmCommand) (ds : DeduplicationSource)
    (effects : List Effect) (txn : Txn) : ApplyOutcome :=
  interp cmd (effects ++ [Effect.ackResponse (AckResponse.acknowledge ds)])
    (store_dedup_seq_number txn (sequence_number_source ds) ds.seq_number)

/-- DeduplicatingCommandInterpreter.on_apply, translated clause by
clause from dedup.rs. -/
def on_apply (interp : InterpFn) (command : AckCommand) (effects : List Effect)
    (txn : Txn) : ApplyOutcome :=
  match command.ack_mode with
  | .ack target =>
    interp command.cmd
      (effects ++ [Effect.ackResponse (AckResponse.acknowledgeTarget target)]) txn
  | .dedup ds =>
    match load_dedup_seq_number txn (sequence_number_source ds) with
    | .error e => .error (.storage e)
    | .ok (some last_known) =>
      if ds.seq_number ≤ last_known then
        .ok ((Option.none, SpanRelation.none),
          effects ++ [Effect.ackResponse (AckResponse.duplicate ds last_known)], txn)
      else dedupProceed interp command.cmd ds effects txn
    | .ok Option.none => dedupProceed interp command.cmd ds effects txn
  | .none => interp command.cmd effects txn

/-- One command application as seen by the partition loop: on success
the transaction commits, on error it aborts and the persisted state is
unchanged. -/
def applyStep (interp : InterpFn) (txn : Txn) (command : AckCommand) : Txn :=
  match on_apply interp command [] txn with
  | .ok (_, _, txn') => txn'
  | .error _ => txn

/-- A sequence of command applications. -/
def applySeq (interp : InterpFn) (txn : Txn) (commands : List AckCommand) : Txn :=
  commands.foldl (applyStep interp) txn

/-- The frame condition of the command interpreter contract: the inner
interpreter stages command-specific effects and mutates its own tables,
but never touches the dedup ledger or the storage fault flag. -/
def DedupPreserving (interp : InterpFn) : Prop :=
  ∀ c eff t r eff' t', interp c eff t = .ok (r, eff', t') →
    t'.dedup = t.dedup ∧ t'.readFails = t.readFails

/-! ## Ledger lemmas -/

theorem dedupLookup_upsert_self (l : List (SequenceNumberSource × Nat))
    (s : SequenceNumberSource) (n : Nat) :
    dedupLookup (dedupUpsert l s n) s = some n := by
  induction l with
  | nil => simp [dedupUpsert, dedupLookup]
  | cons p rest ih =>
    obtain ⟨k, v⟩ := p
    by_cases hk : k = s
    · simp [dedupUpsert, dedupLookup, hk]
    · simp [dedupUpsert, dedupLookup, hk, ih]

theorem dedupLookup_upsert_other (l : List (SequenceNumberSource × Nat))
    (s k : SequenceNumberSource) (n : Nat) (hk : k ≠ s) :
    dedupLookup (dedupUpsert l s n) k = dedupLookup l k := by
  induction l with
  | nil => simp [dedupUpsert, dedupLookup, Ne.symm hk]
  | cons p rest ih =>
    obtain ⟨k', v'⟩ := p
    simp only [dedupUpsert]
    by_cases h1 : k' = s
    · subst h1
      simp [dedupLookup, Ne.symm hk]
    · simp only [if_neg h1]
      by_cases h2 : k' = k
      · simp [dedupLookup, h2]
      · simp [dedupLookup, h2, ih]

/-- Inversion of a successful ledger read. -/
theorem load_dedup_ok (t : Txn) (s : SequenceNumberSource) (r : Option Nat)
    (h : load_dedup_seq_number t s = .ok r) :
    t.readFails = false ∧ dedupLookup t.dedup s = r := by
  by_cases hrf : t.readFails
  · simp [load_dedup_seq_number, hrf] at h
  · simp [load_dedup_seq_number, hrf] at h
    simp [hrf, h]

/-! ## Claim theorems for the dedup layer -/

/-- Claim C1: on a dedup-mode command whose ledger entry exists with
seq_number at most the stored last_known value, on_apply stages exactly
one duplicate effect carrying last_known, leaves the transaction
untouched, never calls the inner interpreter, and returns Ok of None
and SpanRelation.none. The inner interpreter is universally
quantified, so the outcome cannot depend on it. -/
theorem dedup_duplicate_path (interp : InterpFn) (inner : FsmCommand)
    (ds : DeduplicationSource) (effects : List Effect) (txn : Txn) (last : Nat)
    (hload : load_dedup_seq_number txn (sequence_number_source ds) = .ok (some last))
    (hdup : ds.seq_number ≤ last) :
    on_apply interp ⟨inner, .dedup ds⟩ effects txn =
      .ok ((Option.none, SpanRelation.none),
        effects ++ [Effect.ackResponse (AckResponse.duplicate ds last)], txn) := by
  simp [on_apply, hload, hdup]

theorem dedup_duplicate_path_witness :
    load_dedup_seq_number ⟨[(SequenceNumberSource.ingress "client-A", 2)], 0, false⟩
        (sequence_number_source (DeduplicationSource.ingress 2 "client-A")) =
      .ok (some 2) ∧
    (DeduplicationSource.ingress 2 "client-A").seq_number ≤ 2 ∧
    on_apply (fun _ eff t => .ok ((Option.none, SpanRelation.none), eff, t)) ⟨0,
        .dedup (DeduplicationSource.ingress 2 "client-A")⟩ []
        ⟨[(SequenceNumberSource.ingress "client-A", 2)], 0, false⟩ =
      .ok ((Option.none, SpanRelation.none),
        [Effect.ackResponse
          (AckResponse.duplicate (DeduplicationSource.ingress 2 "client-A") 2)],
        ⟨[(SequenceNumberSource.ingress "client-A", 2)], 0, false⟩) :=
  ⟨rfl, by decide,
    dedup_duplicate_path _ 0 (DeduplicationSource.ingress 2 "client-A") []
      ⟨[(SequenceNumberSource.ingress "client-A", 2)], 0, false⟩ 2
      rfl (by decide)⟩

/-- Claim C2: on a dedup-mode command with no ledger entry for its
source, or with a stored value strictly below its sequence number,
on_apply writes the sequence number into the ledger, stages exactly one
acknowledge effect for the source, and then forwards the inner command
to the inner interpreter on the updated transaction, returning its
result unchanged. -/
theorem dedup_fresh_path (interp : InterpFn) (inner : FsmCommand)
    (ds : DeduplicationSource) (effects : List Effect) (txn : Txn)
    (hfresh :
      load_dedup_seq_number txn (sequence_number_source ds) = .ok Option.none ∨
      ∃ last, load_dedup_seq_number txn (sequence_number_source ds) = .ok (some last) ∧
        last < ds.seq_number) :
    on_apply interp ⟨inner, .dedup ds⟩ effects txn =
      interp inner (effects ++ [Effect.ackResponse (AckResponse.acknowledge ds)])
        (store_dedup_seq_number txn (sequence_number_source ds) ds.seq_number) ∧
    dedupLookup
        (store_dedup_seq_number txn (sequence_number_source ds) ds.seq_number).dedup
        (sequence_number_source ds) = some ds.seq_number := by
  refine ⟨?_, dedupLookup_upsert_self _ _ _⟩
  rcases hfresh with hnone | ⟨last, hsome, hlt⟩
  · simp [on_apply, hnone, dedupProceed]
  · simp [on_apply, hsome, Nat.not_le.mpr hlt, dedupProceed]

theorem dedup_fresh_path_witness :
    load_dedup_seq_number ⟨[(SequenceNumberSource.ingress "client-A", 2)], 0, false⟩
        (sequence_number_source (DeduplicationSource.ingress 3 "client-A")) =
      .ok (some 2) ∧ 2 < (DeduplicationSource.ingress 3 "client-A").seq_number ∧
    (on_apply (fun _ eff t => .ok ((Option.none, SpanRelation.none), eff, t)) ⟨0,
        .dedup (DeduplicationSource.ingress 3 "client-A")⟩ []
        ⟨[(SequenceNumberSource.ingress "client-A", 2)], 0, false⟩ =
      .ok ((Option.none, SpanRelation.none),
        [Effect.ackResponse
          (AckResponse.acknowledge (DeduplicationSource.ingress 3 "client-A"))],
        ⟨[(SequenceNumberSource.ingress "client-A", 3)], 0, false⟩)) ∧
    dedupLookup [(SequenceNumberSource.ingress "client-A", 3)]
        (SequenceNumberSource.ingress "client-A") = some 3 :=
  ⟨rfl, by decide,
    (dedup_fresh_path (fun _ eff t => .ok ((Option.none, SpanRelation.none), eff, t))
        0 (DeduplicationSource.ingress 3 "client-A") []
        ⟨[(SequenceNumberSource.ingress "client-A", 2)], 0, false⟩
        (Or.inr ⟨2, rfl, by decide⟩)).1.trans rfl,
    (dedup_fresh_path (fun _ eff t => .ok ((Option.none, SpanRelation.none), eff, t))
        0 (DeduplicationSource.ingress 3 "client-A") []
        ⟨[(SequenceNumberSource.ingress "client-A", 2)], 0, false⟩
        (Or.inr ⟨2, rfl, by decide⟩)).2⟩

/-- Claim C8: in ack mode, on_apply stages exactly one acknowledge
effect addressed to the target and forwards the inner command to the
inner interpreter on the unchanged transaction; in none mode it stages
nothing and forwards directly. Both equations hold for every
transaction, including one whose ledger reads fail, so neither path
reads or writes the dedup ledger. -/
theorem ack_and_none_modes (interp : InterpFn) (inner : FsmCommand)
    (effects : List Effect) (txn : Txn) :
    (∀ target, on_apply interp ⟨inner, .ack target⟩ effects txn =
      interp inner
        (effects ++ [Effect.ackResponse (AckResponse.acknowledgeTarget target)]) txn) ∧
    on_apply interp ⟨inner, AckMode.none⟩ effects txn = interp inner effects txn :=
  ⟨fun _ => rfl, rfl⟩

/-- Claim C4: storage errors are never swallowed. A failing ledger read
makes on_apply return exactly the storage error, with no acknowledge or
duplicate effect and no ledger write in the outcome; an error of the
inner interpreter is returned unchanged on the ack path, on the none
path, and on both non-duplicate dedup sub-paths: a source with no
ledger entry and a source whose stored value is strictly below the
incoming sequence number. In this embedding an error outcome carries
no staged effects and no transaction state, mirroring the abort of the
whole transaction. -/
theorem on_apply_error_propagation (interp : InterpFn) (inner : FsmCommand)
    (effects : List Effect) (txn : Txn) :
    (∀ ds, txn.readFails = true →
      on_apply interp ⟨inner, .dedup ds⟩ effects txn =
        .error (Error.storage StorageError.fail) ∧
      load_dedup_seq_number txn (sequence_number_source ds) =
        .error StorageError.fail) ∧
    (∀ target e,
      interp inner
          (effects ++ [Effect.ackResponse (AckResponse.acknowledgeTarget target)]) txn =
        .error e →
      on_apply interp ⟨inner, .ack target⟩ effects txn = .error e) ∧
    (∀ e, interp inner effects txn = .error e →
      on_apply interp ⟨inner, AckMode.none⟩ effects txn = .error e) ∧
    (∀ ds e, txn.readFails = false →
      (dedupLookup txn.dedup (sequence_number_source ds) = Option.none ∨
        ∃ last, dedupLookup txn.dedup (sequence_number_source ds) = some last ∧
          last < ds.seq_number) →
      interp inner (effects ++ [Effect.ackResponse (AckResponse.acknowledge ds)])
          (store_dedup_seq_number txn (sequence_number_source ds) ds.seq_number) =
        .error e →
      on_apply interp ⟨inner, .dedup ds⟩ effects txn = .error e) := by
  refine ⟨fun ds hrf => ?_, fun target e he => ?_, fun e he => ?_,
    fun ds e hrf hfresh he => ?_⟩
  · constructor <;> simp [on_apply, load_dedup_seq_number, hrf]
  · simpa [on_apply] using he
  · simpa [on_apply] using he
  · rcases hfresh with hlook | ⟨last, hlook, hlt⟩
    · simp [on_apply, load_dedup_seq_number, hrf, hlook, dedupProceed, he]
    · simp [on_apply, load_dedup_seq_number, hrf, hlook, Nat.not_le.mpr hlt,
        dedupProceed, he]

theorem on_apply_error_propagation_witness :
    on_apply (fun _ _ _ => .error (Error.other 7)) ⟨0,
        .dedup (DeduplicationSource.shuffle 1 2)⟩ [] ⟨[], 0, true⟩ =
      .error (Error.storage StorageError.fail) ∧
    on_apply (fun _ _ _ => .error (Error.other 7)) ⟨0, AckMode.none⟩ []
        ⟨[], 0, false⟩ = .error (Error.other 7) ∧
    on_apply (fun _ _ _ => .error (Error.other 7)) ⟨0,
        .dedup (DeduplicationSource.shuffle 1 2)⟩ [] ⟨[], 0, false⟩ =
      .error (Error.other 7) ∧
    on_apply (fun _ _ _ => .error (Error.other 7)) ⟨0,
        .dedup (DeduplicationSource.shuffle 5 2)⟩ []
        ⟨[(SequenceNumberSource.partition 2, 4)], 0, false⟩ =
      .error (Error.other 7) :=
  ⟨((on_apply_error_propagation (fun _ _ _ => .error (Error.other 7)) 0 []
      ⟨[], 0, true⟩).1 (DeduplicationSource.shuffle 1 2) rfl).1,
    (on_apply_error_propagation (fun _ _ _ => .error (Error.other 7)) 0 []
      ⟨[], 0, false⟩).2.2.1 (Error.other 7) rfl,
    (on_apply_error_propagation (fun _ _ _ => .error (Error.other 7)) 0 []
      ⟨[], 0, false⟩).2.2.2 (DeduplicationSource.shuffle 1 2) (Error.other 7) rfl
      (Or.inl rfl) rfl,
    (on_apply_error_propagation (fun _ _ _ => .error (Error.other 7)) 0 []
      ⟨[(SequenceNumberSource.partition 2, 4)], 0, false⟩).2.2.2
      (DeduplicationSource.shuffle 5 2) (Error.other 7) rfl
      (Or.inr ⟨4, rfl, by decide⟩) rfl⟩

/-- One application step never decreases and never deletes a ledger
entry, whatever the inner interpreter does to its own tables. -/
theorem applyStep_mono (interp : InterpFn) (h : DedupPreserving interp)
    (command : AckCommand) (txn : Txn) (s : SequenceNumberSource) (v : Nat)
    (hv : dedupLookup txn.dedup s = some v) :
    ∃ v', dedupLookup (applyStep interp txn command).dedup s = some v' ∧ v ≤ v' := by
  obtain ⟨inner, mode⟩ := command
  cases mode with
  | ack target =>
    cases hi : interp inner
        [Effect.ackResponse (AckResponse.acknowledgeTarget target)] txn with
    | error e => exact ⟨v, by simp [applyStep, on_apply, hi, hv], le_refl v⟩
    | ok res =>
      obtain ⟨r, eff', t'⟩ := res
      have hd := (h _ _ _ _ _ _ hi).1
      exact ⟨v, by simp [applyStep, on_apply, hi, hd, hv], le_refl v⟩
  | none =>
    cases hi : interp inner [] txn with
    | error e => exact ⟨v, by simp [applyStep, on_apply, hi, hv], le_refl v⟩
    | ok res =>
      obtain ⟨r, eff', t'⟩ := res
      have hd := (h _ _ _ _ _ _ hi).1
      exact ⟨v, by simp [applyStep, on_apply, hi, hd, hv], le_refl v⟩
  | dedup ds =>
    cases hload : load_dedup_seq_number txn (sequence_number_source ds) with
    | error e => exact ⟨v, by simp [applyStep, on_apply, hload, hv], le_refl v⟩
    | ok r =>
      obtain ⟨hrf, hlook⟩ := load_dedup_ok txn _ r hload
      cases r with
      | none =>
        have hne : s ≠ sequence_number_source ds := by
          intro heq
          rw [heq, hlook] at hv
          cases hv
        cases hi : interp inner
            [Effect.ackResponse (AckResponse.acknowledge ds)]
            (store_dedup_seq_number txn (sequence_number_source ds)
              ds.seq_number) with
        | error e =>
          exact ⟨v, by
            simp only [applyStep, on_apply, hload, dedupProceed,
              List.nil_append, hi]
            exact hv, le_refl v⟩
        | ok res =>
          obtain ⟨r', eff', t'⟩ := res
          have hd := (h _ _ _ _ _ _ hi).1
          refine ⟨v, ?_, le_refl v⟩
          simp only [applyStep, on_apply, hload, dedupProceed, List.nil_append, hi]
          rw [hd]
          simp [store_dedup_seq_number, dedupLookup_upsert_other _ _ _ _ hne, hv]
      | some last =>
        by_cases hle : ds.seq_number ≤ last
        · exact ⟨v, by simp [applyStep, on_apply, hload, hle, hv], le_refl v⟩
        · cases hi : interp inner
              [Effect.ackResponse (AckResponse.acknowledge ds)]
              (store_dedup_seq_number txn (sequence_number_source ds)
                ds.seq_number) with
          | error e =>
            exact ⟨v, by
              simp only [applyStep, on_apply, hload, if_neg hle, dedupProceed,
                List.nil_append, hi]
              exact hv, le_refl v⟩
          | ok res =>
            obtain ⟨r', eff', t'⟩ := res
            have hd := (h _ _ _ _ _ _ hi).1
            by_cases hs : s = sequence_number_source ds
            · have hv_last : v = last := by
                rw [hs, hlook] at hv
                exact (Option.some.inj hv).symm
              refine ⟨ds.seq_number, ?_, ?_⟩
              · simp only [applyStep, on_apply, hload, if_neg hle, dedupProceed,
                  List.nil_append, hi]
                rw [hd, hs]
                simp [store_dedup_seq_number, dedupLookup_upsert_self]
              · omega
            · refine ⟨v, ?_, le_refl v⟩
              simp only [applyStep, on_apply, hload, if_neg hle, dedupProceed,
                List.nil_append, hi]
              rw [hd]
              simp [store_dedup_seq_number, dedupLookup_upsert_other _ _ _ _ hs, hv]

/-- Claim C9: the persisted dedup ledger is monotone. Along every
sequence of command applications an existing entry survives all of them
and never decreases; within one successful apply a changed entry is
strictly greater than before; and a dedup-mode command on a source with
no entry creates the entry with its sequence number. The inner
interpreter is any function satisfying the frame condition of the
interpreter contract. -/
theorem dedup_ledger_monotone (interp : InterpFn) (h : DedupPreserving interp) :
    (∀ commands txn s v, dedupLookup txn.dedup s = some v →
      ∃ v', dedupLookup (applySeq interp txn commands).dedup s = some v' ∧ v ≤ v') ∧
    (∀ command txn r eff' txn' s v v',
      on_apply interp command [] txn = .ok (r, eff', txn') →
      dedupLookup txn.dedup s = some v → dedupLookup txn'.dedup s = some v' →
      v ≠ v' → v < v') ∧
    (∀ inner ds txn r eff' txn', txn.readFails = false →
      dedupLookup txn.dedup (sequence_number_source ds) = Option.none →
      on_apply interp ⟨inner, .dedup ds⟩ [] txn = .ok (r, eff', txn') →
      dedupLookup txn'.dedup (sequence_number_source ds) = some ds.seq_number) := by
  refine ⟨?_, ?_, ?_⟩
  · intro commands
    induction commands with
    | nil => exact fun txn s v hv => ⟨v, hv, le_refl v⟩
    | cons cmd rest ih =>
      intro txn s v hv
      obtain ⟨v1, hv1, hle1⟩ := applyStep_mono interp h cmd txn s v hv
      obtain ⟨v2, hv2, hle2⟩ := ih (applyStep interp txn cmd) s v1 hv1
      exact ⟨v2, by simpa [applySeq] using hv2, le_trans hle1 hle2⟩
  · intro command txn r eff' txn' s v v' hok hv hv' hne
    obtain ⟨inner, mode⟩ := command
    cases mode with
    | ack target =>
      cases hi : interp inner
          [Effect.ackResponse (AckResponse.acknowledgeTarget target)] txn with
      | error e => simp [on_apply, hi] at hok
      | ok res =>
        obtain ⟨r0, eff0, t0⟩ := res
        simp only [on_apply, List.nil_append, hi, Except.ok.injEq,
          Prod.mk.injEq] at hok
        obtain ⟨-, -, h3⟩ := hok
        rw [← h3, (h _ _ _ _ _ _ hi).1, hv] at hv'
        exact absurd (Option.some.inj hv') hne
    | none =>
      cases hi : interp inner [] txn with
      | error e => simp [on_apply, hi] at hok
      | ok res =>
        obtain ⟨r0, eff0, t0⟩ := res
        simp only [on_apply, hi, Except.ok.injEq, Prod.mk.injEq] at hok
        obtain ⟨-, -, h3⟩ := hok
        rw [← h3, (h _ _ _ _ _ _ hi).1, hv] at hv'
        exact absurd (Option.some.inj hv') hne
    | dedup ds =>
      cases hload : load_dedup_seq_number txn (sequence_number_source ds) with
      | error e => simp [on_apply, hload] at hok
      | ok rr =>
        obtain ⟨hrf, hlook⟩ := load_dedup_ok txn _ rr hload
        have hproceed : ∀ hok2 : dedupProceed interp inner ds [] txn =
            .ok (r, eff', txn'),
            dedupLookup txn.dedup (sequence_number_source ds) = some v →
            ¬ ds.seq_number ≤ v → v < v' := by
          intro hok2 hvs hlt
          cases hi : interp inner
              [Effect.ackResponse (AckResponse.acknowledge ds)]
              (store_dedup_seq_number txn (sequence_number_source ds)
                ds.seq_number) with
          | error e => simp [dedupProceed, hi] at hok2
          | ok res =>
            obtain ⟨r0, eff0, t0⟩ := res
            simp only [dedupProceed, List.nil_append, hi, Except.ok.injEq, Prod.mk.injEq] at hok2
            obtain ⟨-, -, h3⟩ := hok2
            by_cases hs : s = sequence_number_source ds
            · rw [← h3, (h _ _ _ _ _ _ hi).1] at hv'
              rw [hs] at hv'
              rw [store_dedup_seq_number, dedupLookup_upsert_self] at hv'
              have : v' = ds.seq_number := Option.some.inj hv'.symm
              omega
            · rw [← h3, (h _ _ _ _ _ _ hi).1, store_dedup_seq_number] at hv'
              simp only at hv'
              rw [dedupLookup_upsert_other _ _ _ _ hs, hv] at hv'
              exact absurd (Option.some.inj hv') hne
        cases rr with
        | none =>
          have hne2 : s ≠ sequence_number_source ds := by
            intro heq
            rw [heq, hlook] at hv
            cases hv
          simp only [on_apply, hload] at hok
          cases hi : interp inner
              [Effect.ackResponse (AckResponse.acknowledge ds)]
              (store_dedup_seq_number txn (sequence_number_source ds)
                ds.seq_number) with
          | error e => simp [dedupProceed, hi] at hok
          | ok res =>
            obtain ⟨r0, eff0, t0⟩ := res
            simp only [dedupProceed, List.nil_append, hi, Except.ok.injEq, Prod.mk.injEq] at hok
            obtain ⟨-, -, h3⟩ := hok
            rw [← h3, (h _ _ _ _ _ _ hi).1, store_dedup_seq_number] at hv'
            simp only at hv'
            rw [dedupLookup_upsert_other _ _ _ _ hne2, hv] at hv'
            exact absurd (Option.some.inj hv') hne
        | some last =>
          by_cases hle : ds.seq_number ≤ last
          · simp only [on_apply, hload, if_pos hle, Except.ok.injEq,
              Prod.mk.injEq] at hok
            obtain ⟨-, -, h3⟩ := hok
            rw [← h3, hv] at hv'
            exact absurd (Option.some.inj hv') hne
          · simp only [on_apply, hload, if_neg hle] at hok
            by_cases hs : s = sequence_number_source ds
            · have hv_last : v = last := by
                rw [hs, hlook] at hv
                exact (Option.some.inj hv).symm
              exact hproceed hok (by rw [← hs]; exact hv) (by omega)
            · cases hi : interp inner
                  [Effect.ackResponse (AckResponse.acknowledge ds)]
                  (store_dedup_seq_number txn (sequence_number_source ds)
                    ds.seq_number) with
              | error e => simp [dedupProceed, hi] at hok
              | ok res =>
                obtain ⟨r0, eff0, t0⟩ := res
                simp only [dedupProceed, List.nil_append, hi, Except.ok.injEq, Prod.mk.injEq] at hok
                obtain ⟨-, -, h3⟩ := hok
                rw [← h3, (h _ _ _ _ _ _ hi).1, store_dedup_seq_number] at hv'
                simp only at hv'
                rw [dedupLookup_upsert_other _ _ _ _ hs, hv] at hv'
                exact absurd (Option.some.inj hv') hne
  · intro inner ds txn r eff' txn' hrf hlook hok
    simp only [on_apply, load_dedup_seq_number, hrf, if_neg Bool.false_ne_true,
      hlook] at hok
    cases hi : interp inner
        [Effect.ackResponse (AckResponse.acknowledge ds)]
        (store_dedup_seq_number txn (sequence_number_source ds)
          ds.seq_number) with
    | error e => simp [dedupProceed, hi] at hok
    | ok res =>
      obtain ⟨r0, eff0, t0⟩ := res
      simp only [dedupProceed, List.nil_append, hi, Except.ok.injEq, Prod.mk.injEq] at hok
      obtain ⟨-, -, h3⟩ := hok
      rw [← h3, (h _ _ _ _ _ _ hi).1, store_dedup_seq_number]
      simp only
      exact dedupLookup_upsert_self _ _ _

theorem dedup_ledger_monotone_witness :
    ∃ v', dedupLookup (applySeq
        (fun _ eff t => .ok ((Option.none, SpanRelation.none), eff, t))
        ⟨[(SequenceNumberSource.ingress "client-A", 1)], 0, false⟩
        [⟨0, .dedup (DeduplicationSource.ingress 3 "client-A")⟩]).dedup
      (SequenceNumberSource.ingress "client-A") = some v' ∧ 1 ≤ v' :=
  (dedup_ledger_monotone
      (fun _ eff t => .ok ((Option.none, SpanRelation.none), eff, t))
      (fun c eff t r eff' t' hi => by
        simp only [Except.ok.injEq, Prod.mk.injEq] at hi
        obtain ⟨-, -, h3⟩ := hi
        exact ⟨by rw [← h3], by rw [← h3]⟩)).1
    [⟨0, .dedup (DeduplicationSource.ingress 3 "client-A")⟩]
    ⟨[(SequenceNumberSource.ingress "client-A", 1)], 0, false⟩
    (SequenceNumberSource.ingress "client-A") 1 rfl

/-! ## Byte codec lemmas -/

theorem fromBeBytes_toBeBytes (n : Nat) (h : n < 18446744073709551616) :
    fromBeBytes (toBeBytes n) = n := by
  simp only [toBeBytes, fromBeBytes, List.foldl]
  omega

theorem toBeBytes_length (n : Nat) : (toBeBytes n).length = 8 := rfl

theorem toBeBytes_lt (n : Nat) : ∀ b ∈ toBeBytes n, b < 256 := by
  intro b hb
  simp only [toBeBytes, List.mem_cons, List.not_mem_nil, or_false] at hb
  rcases hb with h | h | h | h | h | h | h | h <;> subst h <;> omega

theorem toBeBytes_fromBeBytes (l : List Nat) (hlen : l.length = 8)
    (hlt : ∀ b ∈ l, b < 256) : toBeBytes (fromBeBytes l) = l := by
  rcases l with - | ⟨a, - | ⟨b, - | ⟨c, - | ⟨d, - | ⟨e, - | ⟨f, - | ⟨g, - |
    ⟨h8, - | ⟨i, t⟩⟩⟩⟩⟩⟩⟩⟩⟩ <;> simp at hlen
  have ha := hlt a (by simp)
  have hb := hlt b (by simp)
  have hc := hlt c (by simp)
  have hd := hlt d (by simp)
  have he := hlt e (by simp)
  have hf := hlt f (by simp)
  have hg := hlt g (by simp)
  have hh := hlt h8 (by simp)
  simp only [toBeBytes, fromBeBytes, List.foldl, List.cons.injEq, and_true]
  refine ⟨?_, ?_, ?_, ?_, ?_, ?_, ?_, ?_⟩ <;> omega

theorem fromBeBytes_lt (l : List Nat) (hlen : l.length = 8)
    (hlt : ∀ b ∈ l, b < 256) : fromBeBytes l < 18446744073709551616 := by
  rcases l with - | ⟨a, - | ⟨b, - | ⟨c, - | ⟨d, - | ⟨e, - | ⟨f, - | ⟨g, - |
    ⟨h8, - | ⟨i, t⟩⟩⟩⟩⟩⟩⟩⟩⟩ <;> simp at hlen
  have ha := hlt a (by simp)
  have hb := hlt b (by simp)
  have hc := hlt c (by simp)
  have hd := hlt d (by simp)
  have he := hlt e (by simp)
  have hf := hlt f (by simp)
  have hg := hlt g (by simp)
  have hh := hlt h8 (by simp)
  simp only [fromBeBytes, List.foldl]
  omega

/-- Decoding an encoded invocation id restores the original value. -/
theorem from_slice_encode (pk : Nat) (hpk : pk < 18446744073709551616)
    (u : InvocationUuid) (hu : u.bytes.length = 16) :
    invocation_id_from_slice (encode_invocation_id pk u) = .ok ⟨pk, u⟩ := by
  have hlen8 : (toBeBytes pk).length = 8 := rfl
  have hlen : (encode_invocation_id pk u).length = 24 := by
    simp [encode_invocation_id, hu, toBeBytes_length]
  have htake : (encode_invocation_id pk u).take 8 = toBeBytes pk :=
    List.take_left' hlen8
  have hdrop : (encode_invocation_id pk u).drop 8 = u.bytes :=
    List.drop_left' hlen8
  simp [invocation_id_from_slice, hlen, invocation_id_try_from, hdrop,
    uuid_from_slice, hu, htake, fromBeBytes_toBeBytes pk hpk]

/-- Claim C3: the byte codec is a bijection between well-formed
invocation ids and 24-byte buffers. Encoding always yields exactly 24
bytes laid out as the big-endian partition key followed by the raw uuid
bytes, decoding inverts it, and every 24-byte buffer decodes to exactly
one well-formed invocation id that encodes back to the buffer. -/
theorem invocation_id_bytes_bijection :
    (∀ id : InvocationId, id.Wf →
      id.as_bytes.length = 24 ∧
      id.as_bytes = toBeBytes id.partition_key ++ id.invocation_uuid.bytes ∧
      invocation_id_from_slice id.as_bytes = .ok id) ∧
    (∀ l : List Nat, l.length = 24 → (∀ b ∈ l, b < 256) →
      ∃ id : InvocationId, id.Wf ∧ invocation_id_from_slice l = .ok id ∧
        id.as_bytes = l ∧
        ∀ id' : InvocationId, id'.Wf → id'.as_bytes = l → id' = id) := by
  have part1 : ∀ id : InvocationId, id.Wf →
      id.as_bytes.length = 24 ∧
      id.as_bytes = toBeBytes id.partition_key ++ id.invocation_uuid.bytes ∧
      invocation_id_from_slice id.as_bytes = .ok id := by
    intro id hwf
    obtain ⟨hpk, hu16, -⟩ := hwf
    refine ⟨?_, rfl, ?_⟩
    · simp [InvocationId.as_bytes, encode_invocation_id, hu16, toBeBytes_length]
    · exact from_slice_encode id.partition_key hpk id.invocation_uuid hu16
  refine ⟨part1, ?_⟩
  intro l hlen hlt
  have htake_len : (l.take 8).length = 8 := by simp [hlen]
  have hdrop_len : (l.drop 8).length = 16 := by simp [hlen]
  have hwf : (⟨fromBeBytes (l.take 8), ⟨l.drop 8⟩⟩ : InvocationId).Wf := by
    refine ⟨fromBeBytes_lt (l.take 8) htake_len
      (fun b hb => hlt b (List.take_subset 8 l hb)), hdrop_len,
      fun b hb => hlt b (List.drop_subset 8 l hb)⟩
  have henc : (⟨fromBeBytes (l.take 8), ⟨l.drop 8⟩⟩ : InvocationId).as_bytes = l := by
    simp only [InvocationId.as_bytes, encode_invocation_id,
      toBeBytes_fromBeBytes (l.take 8) htake_len
        (fun b hb => hlt b (List.take_subset 8 l hb))]
    exact List.take_append_drop 8 l
  have hdec : invocation_id_from_slice l = .ok ⟨fromBeBytes (l.take 8), ⟨l.drop 8⟩⟩ := by
    have := from_slice_encode (fromBeBytes (l.take 8))
      (fromBeBytes_lt (l.take 8) htake_len
        (fun b hb => hlt b (List.take_subset 8 l hb)))
      ⟨l.drop 8⟩ hdrop_len
    rw [show encode_invocation_id (fromBeBytes (l.take 8)) ⟨l.drop 8⟩ =
      (⟨fromBeBytes (l.take 8), ⟨l.drop 8⟩⟩ : InvocationId).as_bytes from rfl,
      henc] at this
    exact this
  refine ⟨⟨fromBeBytes (l.take 8), ⟨l.drop 8⟩⟩, hwf, hdec, henc, ?_⟩
  intro id' hwf' henc'
  have h1 := (part1 id' hwf').2.2
  rw [henc', hdec] at h1
  exact (Except.ok.inj h1).symm

theorem invocation_id_bytes_bijection_witness :
    (InvocationId.Wf ⟨92, ⟨[0, 1, 2, 3, 4, 5, 6, 7, 8, 9, 10, 11, 12, 13, 14, 15]⟩⟩) ∧
    invocation_id_from_slice
        (InvocationId.as_bytes
          ⟨92, ⟨[0, 1, 2, 3, 4, 5, 6, 7, 8, 9, 10, 11, 12, 13, 14, 15]⟩⟩) =
      .ok ⟨92, ⟨[0, 1, 2, 3, 4, 5, 6, 7, 8, 9, 10, 11, 12, 13, 14, 15]⟩⟩ :=
  ⟨by decide,
    (invocation_id_bytes_bijection.1
      ⟨92, ⟨[0, 1, 2, 3, 4, 5, 6, 7, 8, 9, 10, 11, 12, 13, 14, 15]⟩⟩
      (by decide)).2.2⟩

/-- Claim C6: from_slice rejects every buffer whose length is not 24
with exactly BadSliceLength, and from_str rejects every string whose
length is not the fixed encoded length 33 with exactly BadBase64Length;
both functions are pure, so no state is mutated. -/
theorem invocation_id_bad_length_errors :
    (∀ b : List Nat, b.length ≠ 24 →
      invocation_id_from_slice b = .error .BadSliceLength) ∧
    (∀ s : List Char, s.length ≠ 33 →
      invocation_id_from_str s = .error .BadBase64Length) := by
  constructor
  · intro b hb
    simp [invocation_id_from_slice, hb]
  · intro s hs
    simp [invocation_id_from_str, hs]

theorem invocation_id_bad_length_errors_witness :
    (List.replicate 23 0).length ≠ 24 ∧
    invocation_id_from_slice (List.replicate 23 0) =
      .error InvocationIdParseError.BadSliceLength ∧
    ([] : List Char).length ≠ 33 ∧
    invocation_id_from_str [] = .error InvocationIdParseError.BadBase64Length :=
  ⟨by decide, invocation_id_bad_length_errors.1 (List.replicate 23 0) (by decide),
    by decide, invocation_id_bad_length_errors.2 [] (by decide)⟩

/-! ## Base64 lemmas -/

/-- Every six-bit value maps to a distinct alphabet character and back. -/
theorem b64index_b64char : ∀ n : Nat, n < 64 → b64index (b64char n) = some n := by
  decide

/-- Decoding an encoding of any byte list restores the bytes. -/
theorem b64_roundtrip : ∀ l : List Nat, (∀ b ∈ l, b < 256) →
    b64decodeChars (b64encodeBytes l) = .ok l
  | [], _ => rfl
  | [b1], h => by
    have h1 : b1 < 256 := h b1 (by simp)
    have e1 := b64index_b64char (b1 / 4) (by omega)
    have e2 := b64index_b64char (b1 % 4 * 16) (by omega)
    simp only [b64encodeBytes, b64decodeChars, e1, e2]
    rw [if_pos (by omega)]
    simp only [Except.ok.injEq, List.cons.injEq, and_true]
    omega
  | [b1, b2], h => by
    have h1 : b1 < 256 := h b1 (by simp)
    have h2 : b2 < 256 := h b2 (by simp)
    have e1 := b64index_b64char (b1 / 4) (by omega)
    have e2 := b64index_b64char (b1 % 4 * 16 + b2 / 16) (by omega)
    have e3 := b64index_b64char (b2 % 16 * 4) (by omega)
    simp only [b64encodeBytes, b64decodeChars, e1, e2, e3]
    rw [if_pos (by omega)]
    simp only [Except.ok.injEq, List.cons.injEq, and_true]
    exact ⟨by omega, by omega⟩
  | b1 :: b2 :: b3 :: rest, h => by
    have h1 : b1 < 256 := h b1 (by simp)
    have h2 : b2 < 256 := h b2 (by simp)
    have h3 : b3 < 256 := h b3 (by simp)
    have hrest : ∀ b ∈ rest, b < 256 := fun b hb => h b (by simp [hb])
    have e1 := b64index_b64char (b1 / 4) (by omega)
    have e2 := b64index_b64char (b1 % 4 * 16 + b2 / 16) (by omega)
    have e3 := b64index_b64char (b2 % 16 * 4 + b3 / 64) (by omega)
    have e4 := b64index_b64char (b3 % 64) (by omega)
    simp only [b64encodeBytes, b64decodeChars, e1, e2, e3, e4,
      b64_roundtrip rest hrest]
    simp only [Except.ok.injEq, List.cons.injEq, and_true]
    exact ⟨by omega, by omega, by omega⟩

/-- The unpadded encoded length of n bytes. -/
theorem b64encode_length : ∀ l : List Nat,
    (b64encodeBytes l).length = (l.length * 4 + 2) / 3
  | [] => rfl
  | [_] => by simp [b64encodeBytes]
  | [_, _] => by simp [b64encodeBytes]
  | b1 :: b2 :: b3 :: rest => by
    simp only [b64encodeBytes, List.length_cons, b64encode_length rest]
    omega

/-- Decoding the in-memory 24-byte layout restores the id. -/
theorem try_from_encode (pk : Nat) (hpk : pk < 18446744073709551616)
    (u : InvocationUuid) (hu : u.bytes.length = 16) :
    invocation_id_try_from (toBeBytes pk ++ u.bytes) = .ok ⟨pk, u⟩ := by
  have htake : (toBeBytes pk ++ u.bytes).take 8 = toBeBytes pk :=
    List.take_left' (toBeBytes_length pk)
  have hdrop : (toBeBytes pk ++ u.bytes).drop 8 = u.bytes :=
    List.drop_left' (toBeBytes_length pk)
  simp [invocation_id_try_from, hdrop, uuid_from_slice, hu, htake,
    fromBeBytes_toBeBytes pk hpk]

/-- Claim C5: the canonical string form of a well-formed invocation id
has fixed total length 33, consisting of the 11-character unpadded
base64url partition-key segment followed by the 22-character uuid
segment, and from_str parses it back to the original id. -/
theorem invocation_id_string_roundtrip (id : InvocationId) (hwf : id.Wf) :
    (display_invocation_id id.partition_key id.invocation_uuid).length = 33 ∧
    (display_invocation_id id.partition_key id.invocation_uuid).take 11 =
      b64encodeBytes (toBeBytes id.partition_key) ∧
    (b64encodeBytes (toBeBytes id.partition_key)).length = 11 ∧
    (display_invocation_id id.partition_key id.invocation_uuid).drop 11 =
      b64encodeBytes id.invocation_uuid.bytes ∧
    (b64encodeBytes id.invocation_uuid.bytes).length = 22 ∧
    invocation_id_from_str
        (display_invocation_id id.partition_key id.invocation_uuid) = .ok id := by
  obtain ⟨hpk, hu16, hubytes⟩ := hwf
  have hlen_pk : (b64encodeBytes (toBeBytes id.partition_key)).length = 11 := by
    rw [b64encode_length, toBeBytes_length]
  have hlen_u : (b64encodeBytes id.invocation_uuid.bytes).length = 22 := by
    rw [b64encode_length, hu16]
  have htake : (display_invocation_id id.partition_key id.invocation_uuid).take 11 =
      b64encodeBytes (toBeBytes id.partition_key) := List.take_left' hlen_pk
  have hdrop : (display_invocation_id id.partition_key id.invocation_uuid).drop 11 =
      b64encodeBytes id.invocation_uuid.bytes := List.drop_left' hlen_pk
  have hstot : (display_invocation_id id.partition_key id.invocation_uuid).length = 33 := by
    simp [display_invocation_id, hlen_pk, hlen_u]
  refine ⟨hstot, htake, hlen_pk, hdrop, hlen_u, ?_⟩
  unfold invocation_id_from_str
  rw [if_neg (by simp [hstot])]
  rw [htake, hdrop,
    b64_roundtrip (toBeBytes id.partition_key) (toBeBytes_lt id.partition_key),
    b64_roundtrip id.invocation_uuid.bytes hubytes]
  exact try_from_encode id.partition_key hpk id.invocation_uuid hu16

theorem invocation_id_string_roundtrip_witness :
    (InvocationId.Wf ⟨92, ⟨[0, 1, 2, 3, 4, 5, 6, 7, 8, 9, 10, 11, 12, 13, 14, 15]⟩⟩) ∧
    (display_invocation_id 92
      ⟨[0, 1, 2, 3, 4, 5, 6, 7, 8, 9, 10, 11, 12, 13, 14, 15]⟩).length = 33 ∧
    invocation_id_from_str (display_invocation_id 92
        ⟨[0, 1, 2, 3, 4, 5, 6, 7, 8, 9, 10, 11, 12, 13, 14, 15]⟩) =
      .ok ⟨92, ⟨[0, 1, 2, 3, 4, 5, 6, 7, 8, 9, 10, 11, 12, 13, 14, 15]⟩⟩ :=
  ⟨by decide,
    (invocation_id_string_roundtrip
      ⟨92, ⟨[0, 1, 2, 3, 4, 5, 6, 7, 8, 9, 10, 11, 12, 13, 14, 15]⟩⟩ (by decide)).1,
    (invocation_id_string_roundtrip
      ⟨92, ⟨[0, 1, 2, 3, 4, 5, 6, 7, 8, 9, 10, 11, 12, 13, 14, 15]⟩⟩
      (by decide)).2.2.2.2.2⟩

/-! ## ServiceId claims -/

/-- Claim C7 counterexample: with_partition_key is a public constructor
taking the partition key as an argument, so a ServiceId whose cached
partition key differs from the hash of its key bytes can be built; the
invariant does not hold for every ServiceId value. -/
theorem service_id_invariant_counterexample :
    (ServiceId.with_partition_key (compute_partition_key [1, 2, 3] + 1)
        "greeter" [1, 2, 3]).partition_key ≠
      compute_partition_key
        (ServiceId.with_partition_key (compute_partition_key [1, 2, 3] + 1)
          "greeter" [1, 2, 3]).key := by
  decide

/-- Claim C7 (amended): every ServiceId built by ServiceId.new carries
partition_key equal to the deterministic hash of its key bytes, and two
ServiceId values built by new from identical key bytes carry identical
partition keys whatever their service names; with_partition_key instead
trusts its caller to pass the hash, as its documentation requires. -/
theorem service_id_new_partition_key (service_name : String) (key : List Nat) :
    (ServiceId.new service_name key).partition_key = compute_partition_key key ∧
    (ServiceId.new service_name key).partition_key =
      compute_partition_key (ServiceId.new service_name key).key ∧
    ∀ n2 : String, (ServiceId.new service_name key).partition_key =
      (ServiceId.new n2 key).partition_key :=
  ⟨rfl, rfl, fun _ => rfl⟩

/-- Claim C10: ServiceId equality compares the cached partition_key
field as well, so two values built via with_partition_key from the same
name and key bytes but different partition keys are distinct, although
ServiceId.new only ever produces the one carrying the hash of the key. -/
theorem service_id_eq_compares_partition_key (service_name : String)
    (key : List Nat) (pk1 pk2 : Nat) (hne : pk1 ≠ pk2) :
    ServiceId.with_partition_key pk1 service_name key ≠
      ServiceId.with_partition_key pk2 service_name key ∧
    ServiceId.new service_name key =
      ServiceId.with_partition_key (compute_partition_key key) service_name key := by
  refine ⟨?_, rfl⟩
  intro h
  exact hne (congrArg ServiceId.partition_key h)

theorem service_id_eq_compares_partition_key_witness :
    (1 : Nat) ≠ 2 ∧
    ServiceId.with_partition_key 1 "greeter" [7] ≠
      ServiceId.with_partition_key 2 "greeter" [7] :=
  ⟨by decide,
    (service_id_eq_compares_partition_key "greeter" [7] 1 2 (by decide)).1⟩

end Restate
